import Mathlib

/-!
Verification of the clay-polish mesh smoothing core (`src/polish.py`).

The embedding works over exact rationals (`ℚ`): every float operation of the
source is modelled as exact real arithmetic, and the float literals `0.5`,
`0.53`, `1e-10` as the rationals `1/2`, `53/100`, `1/10^10`.

External library calls are modelled as follows.

* `np.linalg.eigh` (the symmetric eigendecomposition, an external NumPy
  routine) is an oracle parameter `eigh : M3 → EighOut` handed to the
  algorithm; the property "ascending eigenvalues, orthonormal eigenvector
  columns" that NumPy documents is the predicate `eighSpec`, used as a
  hypothesis where a theorem needs it.
* the float cube root `x ** (1.0/3.0)` is an oracle parameter
  `cbrt : ℚ → ℚ` with pointwise hypotheses where needed.
* `mathutils.Vector.angle n1 n2` is `acos` of the clamped dot product of the
  two (unit) face normals.  Since `acos` is strictly decreasing and the
  threshold angle lies in `[0, π]`, the source comparison
  `angle > edge_threshold_rad` is equivalent to
  `clamp (dot n1 n2) < cos edge_threshold_rad`; the embedding therefore
  takes the *cosine* of the threshold as its parameter (`cosThreshold`);
  the bridging fact is proved over `ℝ` in `angleExceeds_iff_arccos`.
* `bmesh`'s vertex containers become a `Mesh` structure of plain lists; the
  temporary mid-loop write-back of positions used by the source only to
  refresh vertex normals is dropped, because the refreshed vertex normals
  (`vert_normals` in the source) are never read afterwards.
-/

/-- A 3-vector of exact rationals, modelling one float triple of the source. -/
structure V3 where
  x : ℚ
  y : ℚ
  z : ℚ
deriving DecidableEq, Repr

namespace V3

instance : Zero V3 := ⟨⟨0, 0, 0⟩⟩

instance : Add V3 := ⟨fun a b => ⟨a.x + b.x, a.y + b.y, a.z + b.z⟩⟩

instance : Sub V3 := ⟨fun a b => ⟨a.x - b.x, a.y - b.y, a.z - b.z⟩⟩

instance : Neg V3 := ⟨fun a => ⟨-a.x, -a.y, -a.z⟩⟩

instance : SMul ℚ V3 := ⟨fun c a => ⟨c * a.x, c * a.y, c * a.z⟩⟩

theorem ext_xyz {a b : V3} (hx : a.x = b.x) (hy : a.y = b.y) (hz : a.z = b.z) :
    a = b := by
  cases a; cases b; simp_all

@[simp] theorem zero_x : (0 : V3).x = 0 := rfl
@[simp] theorem zero_y : (0 : V3).y = 0 := rfl
@[simp] theorem zero_z : (0 : V3).z = 0 := rfl
@[simp] theorem add_x (a b : V3) : (a + b).x = a.x + b.x := rfl
@[simp] theorem add_y (a b : V3) : (a + b).y = a.y + b.y := rfl
@[simp] theorem add_z (a b : V3) : (a + b).z = a.z + b.z := rfl
@[simp] theorem sub_x (a b : V3) : (a - b).x = a.x - b.x := rfl
@[simp] theorem sub_y (a b : V3) : (a - b).y = a.y - b.y := rfl
@[simp] theorem sub_z (a b : V3) : (a - b).z = a.z - b.z := rfl
@[simp] theorem smul_x (c : ℚ) (a : V3) : (c • a).x = c * a.x := rfl
@[simp] theorem smul_y (c : ℚ) (a : V3) : (c • a).y = c * a.y := rfl
@[simp] theorem smul_z (c : ℚ) (a : V3) : (c • a).z = c * a.z := rfl

/-- Dot product, modelling `np.dot` / `Vector.dot` on 3-vectors. -/
def dot (a b : V3) : ℚ := a.x * b.x + a.y * b.y + a.z * b.z

/-- Cross product, modelling `Vector.cross`. -/
def cross (a b : V3) : V3 :=
  ⟨a.y * b.z - a.z * b.y, a.z * b.x - a.x * b.z, a.x * b.y - a.y * b.x⟩

/-- Sum of a list of vectors. -/
def lsum (l : List V3) : V3 := l.foldr (· + ·) 0

/-- Mean of a list of vectors, modelling `np.mean(_, axis=0)`.
(The source only takes means of nonempty lists; on `[]` this yields `0`.) -/
def vmean (l : List V3) : V3 := ((l.length : ℚ))⁻¹ • lsum l

@[simp] theorem lsum_nil : lsum [] = 0 := rfl
@[simp] theorem lsum_cons (a : V3) (l : List V3) : lsum (a :: l) = a + lsum l := rfl

theorem add_zero_v (a : V3) : a + 0 = a := by
  apply ext_xyz <;> simp

theorem zero_add_v (a : V3) : (0 : V3) + a = a := by
  apply ext_xyz <;> simp

theorem smul_zero_smul (a : V3) : (0 : ℚ) • a = 0 := by
  apply ext_xyz <;> simp

theorem add_smul_zero (p a : V3) : p + (0 : ℚ) • a = p := by
  rw [smul_zero_smul, add_zero_v]

theorem one_smul_v (a : V3) : (1 : ℚ) • a = a := by
  apply ext_xyz <;> simp

end V3

/-- A 3×3 matrix of rationals given by its rows; used for the covariance
matrix `np.dot(centered.T, centered)` of `compute_local_plane_normal`. -/
structure M3 where
  r0 : V3
  r1 : V3
  r2 : V3
deriving DecidableEq, Repr

namespace M3

/-- Matrix–vector product. -/
def mulVec (m : M3) (v : V3) : V3 := ⟨V3.dot m.r0 v, V3.dot m.r1 v, V3.dot m.r2 v⟩

instance : Add M3 := ⟨fun a b => ⟨a.r0 + b.r0, a.r1 + b.r1, a.r2 + b.r2⟩⟩

instance : Zero M3 := ⟨⟨0, 0, 0⟩⟩

/-- Outer product `p pᵀ` of a vector with itself. -/
def outer (p : V3) : M3 :=
  ⟨⟨p.x * p.x, p.x * p.y, p.x * p.z⟩,
   ⟨p.y * p.x, p.y * p.y, p.y * p.z⟩,
   ⟨p.z * p.x, p.z * p.y, p.z * p.z⟩⟩

/-- A matrix is symmetric when its three off-diagonal pairs agree. -/
def IsSymm (m : M3) : Prop :=
  m.r0.y = m.r1.x ∧ m.r0.z = m.r2.x ∧ m.r1.z = m.r2.y

instance (m : M3) : Decidable m.IsSymm := by unfold IsSymm; infer_instance

end M3

/-- Output type of the eigendecomposition oracle modelling `np.linalg.eigh`:
three eigenvalues and the three eigenvector columns of the returned matrix
(`vec0` is `eigenvectors[:, 0]`, the column the source selects). -/
structure EighOut where
  val0 : ℚ
  val1 : ℚ
  val2 : ℚ
  vec0 : V3
  vec1 : V3
  vec2 : V3
deriving DecidableEq, Repr

/-- The behaviour NumPy documents for `eigh` on a symmetric matrix: the
eigenvalues come back in ascending order and the eigenvector columns are
orthonormal eigenvectors for them. -/
def eighSpec (m : M3) (o : EighOut) : Prop :=
  o.val0 ≤ o.val1 ∧ o.val1 ≤ o.val2 ∧
  m.mulVec o.vec0 = o.val0 • o.vec0 ∧
  m.mulVec o.vec1 = o.val1 • o.vec1 ∧
  m.mulVec o.vec2 = o.val2 • o.vec2 ∧
  V3.dot o.vec0 o.vec0 = 1 ∧ V3.dot o.vec1 o.vec1 = 1 ∧ V3.dot o.vec2 o.vec2 = 1 ∧
  V3.dot o.vec0 o.vec1 = 0 ∧ V3.dot o.vec0 o.vec2 = 0 ∧ V3.dot o.vec1 o.vec2 = 0

instance (m : M3) (o : EighOut) : Decidable (eighSpec m o) := by
  unfold eighSpec; infer_instance

/-- The in-memory mesh: positions list (`v.co` for each vertex, indexed by
`v.index`), undirected edge list (vertex index pairs), face list (each a
cyclic vertex index list), and the per-face unit normals that `bmesh`
maintains (`f.normal`). -/
structure Mesh where
  positions : List V3
  edges : List (Nat × Nat)
  faces : List (List Nat)
  faceNormals : List V3
deriving DecidableEq, Repr

/-- Neighbor list of vertex `vi` as built by `build_adjacency_data`: for each
edge, each endpoint gets the other endpoint appended. -/
def vertNeighbors (edges : List (Nat × Nat)) (vi : Nat) : List Nat :=
  edges.foldr
    (fun e acc =>
      (if e.1 = vi then [e.2] else []) ++ (if e.2 = vi then [e.1] else []) ++ acc)
    []

/-- Whether face `face` (a cyclic vertex list) contains the edge `{a, b}`,
i.e. the pair occurs as cyclically consecutive vertices: this is `bmesh`'s
edge-face incidence (`edge.link_faces`). -/
def faceHasEdgeAB (face : List Nat) (a b : Nat) : Bool :=
  (List.range face.length).any fun i =>
    let u := face.getD i 0
    let v := face.getD ((i + 1) % face.length) 0
    (u = a && v = b) || (u = b && v = a)

/-- Indices of the faces incident to edge `{a, b}` (modelling
`edge.link_faces`). -/
def linkFaces (faces : List (List Nat)) (a b : Nat) : List Nat :=
  (List.range faces.length).filter fun fi => faceHasEdgeAB (faces.getD fi []) a b

/-- Clamp to `[-1, 1]`: the domain guard applied to the dot product before
`acos` inside `mathutils.Vector.angle`. -/
def clampUnit (d : ℚ) : ℚ :=
  if d < -1 then -1 else if 1 < d then 1 else d

/-- The source tests `f1.normal.angle(f2.normal) > edge_threshold_rad` where
`angle` is `acos` of the clamped dot of the unit normals; as `acos` is
strictly decreasing with the threshold in `[0, π]` this is the same as the
clamped dot falling below the cosine of the threshold, which is how the
embedding decides it (`c` is that cosine). -/
def angleExceeds (n1 n2 : V3) (c : ℚ) : Bool :=
  clampUnit (V3.dot n1 n2) < c

/-- `detect_hard_edges`: collect every edge with exactly two incident faces
whose face-normal angle exceeds the threshold.  The resulting collection of
unordered vertex pairs (`frozenset` in the source) is kept as a list of
ordered pairs queried up to order by `isHardPair`. -/
def detectHardEdges (m : Mesh) (c : ℚ) : List (Nat × Nat) :=
  m.edges.filter fun e =>
    (linkFaces m.faces e.1 e.2).length = 2 &&
      angleExceeds (m.faceNormals.getD ((linkFaces m.faces e.1 e.2).getD 0 0) 0)
        (m.faceNormals.getD ((linkFaces m.faces e.1 e.2).getD 1 0) 0) c

/-- Membership of the unordered pair `{a, b}` in the hard-edge collection
(`frozenset([vi, ni]) in hard_edges`). -/
def isHardPair (hard : List (Nat × Nat)) (a b : Nat) : Bool :=
  hard.any fun e => (e.1 = a && e.2 = b) || (e.1 = b && e.2 = a)

/-- The points selected by an index list (`positions[neighbor_indices]`). -/
def selectPts (positions : List V3) (idxs : List Nat) : List V3 :=
  idxs.map fun i => positions.getD i 0

/-- Sum of outer products: the covariance matrix
`np.dot(centered.T, centered)` of a list of (already centered) points. -/
def covMat (l : List V3) : M3 := (l.map M3.outer).foldr (· + ·) 0

/-- `compute_local_plane_normal`: `None` on fewer than 3 indices, otherwise
the smallest-eigenvalue eigenvector column of the covariance of the centered
selected points (as produced by the `eigh` oracle) paired with their
centroid. -/
def computeLocalPlaneNormal (eigh : M3 → EighOut) (positions : List V3)
    (idxs : List Nat) : Option (V3 × V3) :=
  if idxs.length < 3 then none
  else
    let pts := selectPts positions idxs
    let centroid := V3.vmean pts
    let centered := pts.map fun p => p - centroid
    let cov := covMat centered
    some ((eigh cov).vec0, centroid)

/-- `project_to_plane`: orthogonal projection of `point` onto the plane
through `planePoint` with normal `planeNormal`. -/
def projectToPlane (point planeNormal planePoint : V3) : V3 :=
  point - V3.dot (point - planePoint) planeNormal • planeNormal

/-- Body of the shrink loop of `clay_polish_mesh` for one vertex `vi`: the
value the iteration stores into `new_positions[vi]` (the copied entry when one
of the `continue`s fires, the blended projection otherwise).  All reads go to
the pre-step buffer `positions`. -/
def shrinkBody (eigh : M3 → EighOut) (nbrs : Nat → List Nat)
    (hard : List (Nat × Nat)) (lam : ℚ) (positions : List V3) (vi : Nat) : V3 :=
  let p := positions.getD vi 0
  let neighbors := nbrs vi
  if neighbors.length < 3 then p
  else
    let valid := neighbors.filter fun ni => !isHardPair hard vi ni
    if valid.length < 3 then p
    else
      match computeLocalPlaneNormal eigh positions (valid ++ [vi]) with
      | none => p
      | some (planeNormal, planeCenter) =>
        let projected := projectToPlane p planeNormal planeCenter
        p + lam • (projected - p)

/-- STEP 1 of an iteration of `clay_polish_mesh` (the polish/shrink step):
start from a copy of the buffer and store each vertex's update in turn. -/
def shrinkStep (eigh : M3 → EighOut) (nbrs : Nat → List Nat)
    (hard : List (Nat × Nat)) (lam : ℚ) (positions : List V3) : List V3 :=
  (List.range positions.length).foldl
    (fun acc vi => acc.set vi (shrinkBody eigh nbrs hard lam positions vi)) positions

/-- Body of the inflate loop for one vertex `vi`: unchanged without a
neighbor, otherwise the Laplacian displacement scaled by `mu`.  Note the
neighbor list is *not* filtered by hard edges here. -/
def inflateBody (nbrs : Nat → List Nat) (mu : ℚ) (positions : List V3)
    (vi : Nat) : V3 :=
  let p := positions.getD vi 0
  let neighbors := nbrs vi
  if neighbors.length < 1 then p
  else
    let neighborAvg := V3.vmean (selectPts positions neighbors)
    let laplacian := neighborAvg - p
    p + mu • laplacian

/-- STEP 2 of an iteration of `clay_polish_mesh` (the inflate step). -/
def inflateStep (nbrs : Nat → List Nat) (mu : ℚ) (positions : List V3) :
    List V3 :=
  (List.range positions.length).foldl
    (fun acc vi => acc.set vi (inflateBody nbrs mu positions vi)) positions

/-- Fan-triangulated signed volume contribution of one face in
`compute_mesh_volume` (zero for faces with fewer than 3 vertices). -/
def faceFanVolume (positions : List V3) (face : List Nat) : ℚ :=
  if face.length < 3 then 0
  else
    let v0 := positions.getD (face.getD 0 0) 0
    ((List.range (face.length - 2)).map fun i =>
      let v1 := positions.getD (face.getD (i + 1) 0) 0
      let v2 := positions.getD (face.getD (i + 2) 0) 0
      V3.dot v0 (V3.cross v1 v2) / 6).sum

/-- Python's `abs` on a rational. -/
def ratAbs (q : ℚ) : ℚ := if q < 0 then -q else q

/-- `compute_mesh_volume`: absolute value of the summed signed tetrahedron
volumes over all faces. -/
def computeMeshVolume (faces : List (List Nat)) (positions : List V3) : ℚ :=
  ratAbs (faces.map (faceFanVolume positions)).sum

/-- The epsilon `1e-10` guarding the volume correction. -/
def volEps : ℚ := 1 / 10 ^ 10

/-- The final volume-correction block of `clay_polish_mesh` (entered when
`keep_volume` holds): when both the original and the recomputed volume exceed
`1e-10`, scale about the current centroid by the cube root of the volume
ratio and recenter on the original centroid; otherwise leave the buffer
untouched. -/
def volumeCorrect (cbrt : ℚ → ℚ) (faces : List (List Nat)) (origVolume : ℚ)
    (origCenter : V3) (positions : List V3) : List V3 :=
  if volEps < origVolume then
    let newVolume := computeMeshVolume faces positions
    if volEps < newVolume then
      let scaleFactor := cbrt (origVolume / newVolume)
      let newCenter := V3.vmean positions
      let scaled := positions.map fun p => newCenter + scaleFactor • (p - newCenter)
      let adjustedCenter := V3.vmean scaled
      scaled.map fun p => p + (origCenter - adjustedCenter)
    else positions
  else positions

/-- Configuration of `clay_polish_mesh`.  `iterations` is an `Int` so that
out-of-range (negative) values can be passed as Python would receive them;
`cosThreshold` is the cosine of `edge_threshold` converted to radians (see
`angleExceeds`). -/
structure Config where
  strength : ℚ
  iterations : Int
  cosThreshold : ℚ
  keepVolume : Bool
deriving DecidableEq, Repr

/-- The two external numerical routines the source calls, as oracles:
`np.linalg.eigh` and the float cube root `x ** (1.0/3.0)`. -/
structure Oracles where
  eigh : M3 → EighOut
  cbrt : ℚ → ℚ

/-- Error channel for the result of the core.  The spec names
`InvalidConfigurationError`; the source contains no raise site. -/
inductive PolishError where
  | invalidConfiguration
deriving DecidableEq, Repr

/-- `clay_polish_mesh`: returns the (whole) mesh with positions replaced by
the smoothed buffer.  An empty mesh returns unchanged at once.  The iteration
loop `for iteration in range(iterations)` runs `max iterations 0` times
(Python's `range` of a negative number is empty).  No code path produces an
error. -/
def clayPolishMesh (orc : Oracles) (m : Mesh) (cfg : Config) :
    Except PolishError Mesh :=
  if m.positions.length = 0 then .ok m
  else
    let nbrs := vertNeighbors m.edges
    let hard := detectHardEdges m cfg.cosThreshold
    let taubinLambda := cfg.strength * (1 / 2)
    let taubinMu := -(cfg.strength * (53 / 100))
    let origVolume := computeMeshVolume m.faces m.positions
    let origCenter := V3.vmean m.positions
    let afterIters :=
      (List.range cfg.iterations.toNat).foldl
        (fun ps _ => inflateStep nbrs taubinMu (shrinkStep orc.eigh nbrs hard taubinLambda ps))
        m.positions
    let finalPositions :=
      if cfg.keepVolume then
        volumeCorrect orc.cbrt m.faces origVolume origCenter afterIters
      else afterIters
    .ok { m with positions := finalPositions }

/-- The copy-and-set loops of the two smoothing steps preserve the length of
the buffer. -/
theorem foldl_set_length (f : Nat → V3) (l : List Nat) (init : List V3) :
    (l.foldl (fun acc vi => acc.set vi (f vi)) init).length = init.length := by
  induction l generalizing init with
  | nil => rfl
  | cons a t ih => simpa using ih (init.set a (f a))

/-- Pointwise description of a copy-and-set loop over `List.range n`: inside
the processed range (and inside the buffer) the entry is the freshly computed
value, elsewhere the initial entry.  In particular each stored value is
computed from data fixed before the loop, never from earlier stores. -/
theorem foldl_range_set_getD (f : Nat → V3) (n : Nat) (init : List V3) (j : Nat) :
    ((List.range n).foldl (fun acc vi => acc.set vi (f vi)) init).getD j 0 =
      if j < n ∧ j < init.length then f j else init.getD j 0 := by
  induction n with
  | zero => simp
  | succ n ih =>
    rw [List.range_succ, List.foldl_append]
    simp only [List.foldl_cons, List.foldl_nil]
    set X := (List.range n).foldl (fun acc vi => acc.set vi (f vi)) init with hX
    have hlen : X.length = init.length := foldl_set_length f _ init
    rw [List.getD_eq_getElem?_getD, List.getElem?_set]
    split_ifs with h1 h2 h3 h3 h3
    · subst h1; simp
    · subst h1; rw [hlen] at h2; omega
    · subst h1; rw [hlen] at h2; exact absurd h3.2 h2
    · subst h1
      rw [hlen] at h2
      rw [List.getD_eq_default _ _ (by omega)]
      rfl
    · rw [← List.getD_eq_getElem?_getD, ih, if_pos ⟨by omega, h3.2⟩]
    · rw [← List.getD_eq_getElem?_getD, ih, if_neg (by omega)]

/-- A copy-and-set loop whose body always reproduces the initial entry leaves
the buffer unchanged. -/
theorem foldl_range_set_id (f : Nat → V3) (init : List V3)
    (h : ∀ j, j < init.length → f j = init.getD j 0) :
    (List.range init.length).foldl (fun acc vi => acc.set vi (f vi)) init = init := by
  apply List.ext_getElem (foldl_set_length f _ init)
  intro j h1 h2
  have := foldl_range_set_getD f init.length init j
  rw [if_pos ⟨h2, h2⟩, h j h2] at this
  rw [← List.getD_eq_getElem _ 0 h1, this, List.getD_eq_getElem _ 0 h2]

/-- Length preservation for the shrink step. -/
theorem shrinkStep_length (eigh : M3 → EighOut) (nbrs : Nat → List Nat)
    (hard : List (Nat × Nat)) (lam : ℚ) (ps : List V3) :
    (shrinkStep eigh nbrs hard lam ps).length = ps.length :=
  foldl_set_length _ _ _

/-- Length preservation for the inflate step. -/
theorem inflateStep_length (nbrs : Nat → List Nat) (mu : ℚ) (ps : List V3) :
    (inflateStep nbrs mu ps).length = ps.length :=
  foldl_set_length _ _ _

/-- Pointwise value of the shrink step: each entry is `shrinkBody` evaluated
on the pre-step buffer. -/
theorem shrinkStep_getD (eigh : M3 → EighOut) (nbrs : Nat → List Nat)
    (hard : List (Nat × Nat)) (lam : ℚ) (ps : List V3) (vi : Nat)
    (h : vi < ps.length) :
    (shrinkStep eigh nbrs hard lam ps).getD vi 0 =
      shrinkBody eigh nbrs hard lam ps vi := by
  unfold shrinkStep
  rw [foldl_range_set_getD, if_pos ⟨h, h⟩]

/-- Pointwise value of the inflate step: each entry is `inflateBody`
evaluated on the pre-step buffer. -/
theorem inflateStep_getD (nbrs : Nat → List Nat) (mu : ℚ) (ps : List V3)
    (vi : Nat) (h : vi < ps.length) :
    (inflateStep nbrs mu ps).getD vi 0 = inflateBody nbrs mu ps vi := by
  unfold inflateStep
  rw [foldl_range_set_getD, if_pos ⟨h, h⟩]

/-- The unit cube centered at the origin: 8 vertices, 12 edges, 6 outward
quad faces with their unit normals — the concrete mesh of the spec's
hard-edge preservation scenario. -/
def cubeMesh : Mesh where
  positions :=
    [⟨-(1/2), -(1/2), -(1/2)⟩, ⟨1/2, -(1/2), -(1/2)⟩, ⟨1/2, 1/2, -(1/2)⟩,
     ⟨-(1/2), 1/2, -(1/2)⟩, ⟨-(1/2), -(1/2), 1/2⟩, ⟨1/2, -(1/2), 1/2⟩,
     ⟨1/2, 1/2, 1/2⟩, ⟨-(1/2), 1/2, 1/2⟩]
  edges :=
    [(0, 1), (1, 2), (2, 3), (3, 0), (4, 5), (5, 6), (6, 7), (7, 4),
     (0, 4), (1, 5), (2, 6), (3, 7)]
  faces :=
    [[0, 3, 2, 1], [4, 5, 6, 7], [0, 1, 5, 4], [1, 2, 6, 5], [2, 3, 7, 6],
     [3, 0, 4, 7]]
  faceNormals :=
    [⟨0, 0, -1⟩, ⟨0, 0, 1⟩, ⟨0, -1, 0⟩, ⟨1, 0, 0⟩, ⟨0, 1, 0⟩, ⟨-1, 0, 0⟩]

instance {ε α : Type} [DecidableEq ε] [DecidableEq α] :
    DecidableEq (Except ε α) := fun a b =>
  match a, b with
  | .ok x, .ok y =>
      if h : x = y then .isTrue (by rw [h]) else
        .isFalse fun hc => h (by injection hc)
  | .error x, .error y =>
      if h : x = y then .isTrue (by rw [h]) else
        .isFalse fun hc => h (by injection hc)
  | .ok _, .error _ => .isFalse fun hc => Except.noConfusion hc
  | .error _, .ok _ => .isFalse fun hc => Except.noConfusion hc

/-- The cube positions scaled so the half-side is `s` (so `s = 1/2` is
`cubeMesh.positions`); every smoothing iteration on the cube stays in this
family. -/
def cubeScaled (s : ℚ) : List V3 :=
  [⟨-s, -s, -s⟩, ⟨s, -s, -s⟩, ⟨s, s, -s⟩, ⟨-s, s, -s⟩,
   ⟨-s, -s, s⟩, ⟨s, -s, s⟩, ⟨s, s, s⟩, ⟨-s, s, s⟩]

theorem cubeScaled_length (s : ℚ) : (cubeScaled s).length = 8 := rfl

theorem cubeMesh_positions_eq : cubeMesh.positions = cubeScaled (1 / 2) := rfl

/-- With every cube edge hard, the shrink step never finds 3 valid neighbors
and leaves any 8-entry buffer untouched. -/
theorem cube_shrink_id (eigh : M3 → EighOut) (lam : ℚ) (ps : List V3)
    (h : ps.length = 8) :
    shrinkStep eigh (vertNeighbors cubeMesh.edges) cubeMesh.edges lam ps = ps := by
  unfold shrinkStep
  apply foldl_range_set_id
  intro j hj
  rw [h] at hj
  interval_cases j <;> rfl

/-- One inflate step on a scaled cube is a uniform rescaling: every vertex's
Laplacian is `-(2/3)` times its own position. -/
theorem cube_inflate_scale (mu s : ℚ) :
    inflateStep (vertNeighbors cubeMesh.edges) mu (cubeScaled s) =
      cubeScaled ((1 - 2/3 * mu) * s) := by
  apply List.ext_getElem
  · rw [inflateStep_length, cubeScaled_length, cubeScaled_length]
  intro n h1 h2
  rw [inflateStep_length, cubeScaled_length] at h1
  rw [← List.getD_eq_getElem _ 0 h2, ← List.getD_eq_getElem _ 0 (by rw [inflateStep_length]; exact h1)]
  rw [inflateStep_getD _ _ _ _ (by rw [cubeScaled_length]; exact h1)]
  interval_cases n <;>
    (apply V3.ext_xyz <;>
      simp [inflateBody, vertNeighbors, cubeMesh, selectPts, V3.vmean, V3.lsum, cubeScaled, List.getD] <;>
      ring)

/-- The whole iteration loop of `clay_polish_mesh` on the all-edges-hard cube:
`k` rounds scale the half-side by `(1 - 2/3 · mu) ^ k`. -/
theorem cube_loop_scale (eigh : M3 → EighOut) (lam mu : ℚ) (k : Nat) :
    (List.range k).foldl
        (fun ps _ =>
          inflateStep (vertNeighbors cubeMesh.edges) mu
            (shrinkStep eigh (vertNeighbors cubeMesh.edges) cubeMesh.edges lam ps))
        (cubeScaled (1 / 2)) =
      cubeScaled ((1 - 2/3 * mu) ^ k * (1 / 2)) := by
  induction k with
  | zero => simp
  | succ k ih =>
    rw [List.range_succ, List.foldl_append, ih]
    simp only [List.foldl_cons, List.foldl_nil]
    rw [cube_shrink_id _ _ _ (cubeScaled_length _), cube_inflate_scale]
    congr 1
    ring

/-- For any positive cosine threshold (any threshold angle below 90 degrees)
an edge of the cube whose two incident face normals are orthogonal passes the
hard-edge filter predicate. -/
theorem cube_edge_pred (c : ℚ) (hc : 0 < c) (a b f1 f2 : Nat)
    (hlf : linkFaces cubeMesh.faces a b = [f1, f2])
    (hdot : V3.dot (cubeMesh.faceNormals.getD f1 0)
      (cubeMesh.faceNormals.getD f2 0) = 0) :
    (decide ((linkFaces cubeMesh.faces a b).length = 2) &&
      angleExceeds (cubeMesh.faceNormals.getD ((linkFaces cubeMesh.faces a b).getD 0 0) 0)
        (cubeMesh.faceNormals.getD ((linkFaces cubeMesh.faces a b).getD 1 0) 0) c) = true := by
  rw [hlf]
  simp only [List.getD_eq_getElem?_getD] at hdot
  norm_num [angleExceeds, clampUnit, hdot]
  exact hc

/-- With a threshold angle below 90 degrees every one of the 12 cube edges is
detected hard (each borders two faces whose normals are orthogonal). -/
theorem cube_hard_edges (c : ℚ) (hc : 0 < c) :
    detectHardEdges cubeMesh c = cubeMesh.edges := by
  unfold detectHardEdges
  rw [List.filter_eq_self]
  intro e he
  fin_cases he
  · exact cube_edge_pred c hc 0 1 0 2 rfl (by norm_num [cubeMesh, V3.dot])
  · exact cube_edge_pred c hc 1 2 0 3 rfl (by norm_num [cubeMesh, V3.dot])
  · exact cube_edge_pred c hc 2 3 0 4 rfl (by norm_num [cubeMesh, V3.dot])
  · exact cube_edge_pred c hc 3 0 0 5 rfl (by norm_num [cubeMesh, V3.dot])
  · exact cube_edge_pred c hc 4 5 1 2 rfl (by norm_num [cubeMesh, V3.dot])
  · exact cube_edge_pred c hc 5 6 1 3 rfl (by norm_num [cubeMesh, V3.dot])
  · exact cube_edge_pred c hc 6 7 1 4 rfl (by norm_num [cubeMesh, V3.dot])
  · exact cube_edge_pred c hc 7 4 1 5 rfl (by norm_num [cubeMesh, V3.dot])
  · exact cube_edge_pred c hc 0 4 2 5 rfl (by norm_num [cubeMesh, V3.dot])
  · exact cube_edge_pred c hc 1 5 2 3 rfl (by norm_num [cubeMesh, V3.dot])
  · exact cube_edge_pred c hc 2 6 3 4 rfl (by norm_num [cubeMesh, V3.dot])
  · exact cube_edge_pred c hc 3 7 4 5 rfl (by norm_num [cubeMesh, V3.dot])

/-- A quad face contributes its two fan triangles (structural unfolding of
`faceFanVolume`). -/
theorem faceFanVolume_quad (ps : List V3) (a b c d : Nat) :
    faceFanVolume ps [a, b, c, d] =
      V3.dot (ps.getD a 0) (V3.cross (ps.getD b 0) (ps.getD c 0)) / 6 +
        (V3.dot (ps.getD a 0) (V3.cross (ps.getD c 0) (ps.getD d 0)) / 6 + 0) := rfl

/-- Signed fan volume of the scaled cube, before the absolute value. -/
theorem cube_volume_sum (t : ℚ) :
    (cubeMesh.faces.map (faceFanVolume (cubeScaled t))).sum = 8 * t ^ 3 := by
  simp only [show cubeMesh.faces =
    [[0, 3, 2, 1], [4, 5, 6, 7], [0, 1, 5, 4], [1, 2, 6, 5], [2, 3, 7, 6],
     [3, 0, 4, 7]] from rfl, List.map_cons, List.map_nil, List.sum_cons,
    List.sum_nil, faceFanVolume_quad,
    show (cubeScaled t).getD 0 0 = ⟨-t, -t, -t⟩ from rfl,
    show (cubeScaled t).getD 1 0 = ⟨t, -t, -t⟩ from rfl,
    show (cubeScaled t).getD 2 0 = ⟨t, t, -t⟩ from rfl,
    show (cubeScaled t).getD 3 0 = ⟨-t, t, -t⟩ from rfl,
    show (cubeScaled t).getD 4 0 = ⟨-t, -t, t⟩ from rfl,
    show (cubeScaled t).getD 5 0 = ⟨t, -t, t⟩ from rfl,
    show (cubeScaled t).getD 6 0 = ⟨t, t, t⟩ from rfl,
    show (cubeScaled t).getD 7 0 = ⟨-t, t, t⟩ from rfl]
  simp only [V3.dot, V3.cross]
  ring

/-- Volume of the scaled cube: side `2t` cubed. -/
theorem cube_volume (t : ℚ) (h : 0 ≤ t) :
    computeMeshVolume cubeMesh.faces (cubeScaled t) = 8 * t ^ 3 := by
  unfold computeMeshVolume ratAbs
  rw [cube_volume_sum, if_neg]
  push_neg
  positivity

/-- The scaled cube is centered at the origin. -/
theorem cube_vmean (t : ℚ) : V3.vmean (cubeScaled t) = 0 := by
  unfold V3.vmean
  rw [cubeScaled_length]
  apply V3.ext_xyz <;> simp [cubeScaled, V3.lsum]

/-- Scaling about the origin maps the scaled-cube family to itself. -/
theorem cube_map_scale (cs s : ℚ) :
    (cubeScaled s).map (fun p => (0 : V3) + cs • (p - 0)) = cubeScaled (cs * s) := by
  simp only [cubeScaled, List.map_cons, List.map_nil, List.cons.injEq, and_true]
  refine ⟨?_, ?_, ?_, ?_, ?_, ?_, ?_, ?_⟩ <;>
    (apply V3.ext_xyz <;>
      simp only [V3.add_x, V3.add_y, V3.add_z, V3.sub_x, V3.sub_y, V3.sub_z,
        V3.smul_x, V3.smul_y, V3.smul_z, V3.zero_x, V3.zero_y, V3.zero_z] <;>
      ring)

/-- Evaluation of the final volume-correction block in the cube scenario:
the uniform rescale by the cube root of the volume ratio undoes the inflate
growth exactly. -/
theorem volumeCorrect_cube (cbrt : ℚ → ℚ)
    (hcbrt : cbrt ((1 : ℚ) / ((203 : ℚ) / 150) ^ 30) = (150 / 203) ^ 10) :
    volumeCorrect cbrt cubeMesh.faces
      (computeMeshVolume cubeMesh.faces (cubeScaled (1 / 2)))
      (V3.vmean (cubeScaled (1 / 2)))
      (cubeScaled (((203 : ℚ) / 150) ^ 10 * (1 / 2))) = cubeScaled (1 / 2) := by
  have h0 : computeMeshVolume cubeMesh.faces (cubeScaled (1 / 2)) = 1 := by
    rw [cube_volume _ (by norm_num)]; norm_num
  have h1 : computeMeshVolume cubeMesh.faces
      (cubeScaled (((203 : ℚ) / 150) ^ 10 * (1 / 2))) = ((203 : ℚ) / 150) ^ 30 := by
    rw [cube_volume _ (by positivity)]; ring
  have harg : ((150 : ℚ) / 203) ^ 10 * (((203 : ℚ) / 150) ^ 10 * (1 / 2)) = 1 / 2 := by
    norm_num
  unfold volumeCorrect
  rw [h0, h1, if_pos (by norm_num [volEps]), if_pos (by norm_num [volEps])]
  simp only [hcbrt, cube_vmean, cube_map_scale, harg]
  simp [cube_vmean, V3.add_zero_v, show ((0 : V3) - 0) = 0 from by
    apply V3.ext_xyz <;> simp]

/-- C2: for the spec's hard-edge preservation scenario — the unit cube
centered at the origin, an edge threshold below 90 degrees (30 degrees has
cosine `√3/2 > 0`; the embedding takes the cosine `c` of the threshold),
`strength = 1`, `iterations = 10`, default configuration otherwise
(`keep_volume = true`) — `clay_polish_mesh` returns the input positions
(exactly, in exact arithmetic, hence within `1e-6`), and every cube edge is
classified hard so no plane fit ever includes a cross-edge neighbor (the
shrink step moves nothing; `cube_shrink_id`).  The cube-root oracle is
assumed exact at the one ratio the run feeds it. -/
theorem C2_cube_unchanged (orc : Oracles) (c : ℚ) (hc : 0 < c)
    (hcbrt : orc.cbrt ((1 : ℚ) / ((203 : ℚ) / 150) ^ 30) = (150 / 203) ^ 10) :
    detectHardEdges cubeMesh c = cubeMesh.edges ∧
      clayPolishMesh orc cubeMesh ⟨1, 10, c, true⟩ = .ok cubeMesh := by
  refine ⟨cube_hard_edges c hc, ?_⟩
  have hE : clayPolishMesh orc cubeMesh ⟨1, 10, c, true⟩ =
      .ok { cubeMesh with positions :=
        (volumeCorrect orc.cbrt cubeMesh.faces
          (computeMeshVolume cubeMesh.faces (cubeScaled (1 / 2)))
          (V3.vmean (cubeScaled (1 / 2)))
          ((List.range 10).foldl
            (fun ps _ => inflateStep (vertNeighbors cubeMesh.edges) (-(1 * (53 / 100)))
              (shrinkStep orc.eigh (vertNeighbors cubeMesh.edges)
                (detectHardEdges cubeMesh c) (1 * (1 / 2)) ps))
            (cubeScaled (1 / 2)))) } := rfl
  rw [cube_hard_edges c hc, cube_loop_scale,
    show ((1 : ℚ) - 2 / 3 * -(1 * (53 / 100))) = (203 : ℚ) / 150 by norm_num,
    volumeCorrect_cube orc.cbrt hcbrt] at hE
  exact hE

/-- A concrete oracle pair used to instantiate witness statements: a fixed
(orthonormal, ascending) eigendecomposition answer and a cube root that is
exact at the two values the witnesses feed it. -/
def witnessOracles : Oracles where
  eigh := fun _ => ⟨0, 0, 0, ⟨1, 0, 0⟩, ⟨0, 1, 0⟩, ⟨0, 0, 1⟩⟩
  cbrt := fun q => if q = (1 : ℚ) / ((203 : ℚ) / 150) ^ 30 then ((150 : ℚ) / 203) ^ 10 else 1

theorem C2_cube_unchanged_witness :
    (0 : ℚ) < 13 / 15 ∧
      witnessOracles.cbrt ((1 : ℚ) / ((203 : ℚ) / 150) ^ 30) = (150 / 203) ^ 10 ∧
      (detectHardEdges cubeMesh (13 / 15) = cubeMesh.edges ∧
        clayPolishMesh witnessOracles cubeMesh ⟨1, 10, 13 / 15, true⟩ = .ok cubeMesh) :=
  ⟨by norm_num, by simp [witnessOracles],
    C2_cube_unchanged witnessOracles (13 / 15) (by norm_num)
      (by simp [witnessOracles])⟩

/-- The iteration loop preserves the buffer length. -/
theorem loop_length (eigh : M3 → EighOut) (nbrs : Nat → List Nat)
    (hard : List (Nat × Nat)) (lam mu : ℚ) (k : Nat) (ps : List V3) :
    ((List.range k).foldl
        (fun ps _ => inflateStep nbrs mu (shrinkStep eigh nbrs hard lam ps))
        ps).length = ps.length := by
  induction k with
  | zero => rfl
  | succ k ih =>
    rw [List.range_succ, List.foldl_append]
    simp only [List.foldl_cons, List.foldl_nil]
    rw [inflateStep_length, shrinkStep_length, ih]

/-- The volume-correction block preserves the buffer length. -/
theorem volumeCorrect_length (cbrt : ℚ → ℚ) (faces : List (List Nat))
    (v0 : ℚ) (c0 : V3) (ps : List V3) :
    (volumeCorrect cbrt faces v0 c0 ps).length = ps.length := by
  unfold volumeCorrect
  split_ifs with h1
  · simp only []
    split_ifs with h2 <;> simp [List.length_map]
  · rfl

/-- C9: a zero-vertex mesh is returned unchanged at once, with no error, for
every configuration (the `len(bm.verts) == 0` early return). -/
theorem C9_empty_mesh_noop (orc : Oracles) (m : Mesh) (cfg : Config)
    (h : m.positions.length = 0) : clayPolishMesh orc m cfg = .ok m := by
  unfold clayPolishMesh
  rw [if_pos h]

theorem C9_empty_mesh_noop_witness :
    (Mesh.positions ⟨[], [], [], []⟩).length = 0 ∧
      clayPolishMesh witnessOracles ⟨[], [], [], []⟩ ⟨1 / 2, 3, 13 / 15, true⟩ =
        .ok ⟨[], [], [], []⟩ :=
  ⟨rfl, C9_empty_mesh_noop witnessOracles ⟨[], [], [], []⟩ ⟨1 / 2, 3, 13 / 15, true⟩ rfl⟩

/-- C8: for every input mesh and every configuration the call succeeds and
leaves the topology identical — the edge list, face list, face normals and
the vertex count (position-buffer length) are unchanged; only the position
values change. -/
theorem C8_topology_invariance (orc : Oracles) (m : Mesh) (cfg : Config) :
    ∃ m', clayPolishMesh orc m cfg = .ok m' ∧ m'.edges = m.edges ∧
      m'.faces = m.faces ∧ m'.faceNormals = m.faceNormals ∧
      m'.positions.length = m.positions.length := by
  unfold clayPolishMesh
  by_cases h : m.positions.length = 0
  · exact ⟨m, by rw [if_pos h], rfl, rfl, rfl, rfl⟩
  · rw [if_neg h]
    refine ⟨_, rfl, rfl, rfl, rfl, ?_⟩
    by_cases hk : cfg.keepVolume
    · simp only [hk, if_pos]
      rw [volumeCorrect_length, loop_length]
    · simp only [hk]
      rw [if_neg (by simp), loop_length]

/-- With `lambda = 0` the shrink body reproduces the entry unchanged on
every code path. -/
theorem shrinkBody_zero (eigh : M3 → EighOut) (nbrs : Nat → List Nat)
    (hard : List (Nat × Nat)) (ps : List V3) (vi : Nat) :
    shrinkBody eigh nbrs hard 0 ps vi = ps.getD vi 0 := by
  unfold shrinkBody
  by_cases h1 : (nbrs vi).length < 3
  · simp [h1]
  · by_cases h2 : ((nbrs vi).filter (fun ni => !isHardPair hard vi ni)).length < 3
    · simp [h1, h2]
    · cases hm : computeLocalPlaneNormal eigh ps
        ((nbrs vi).filter (fun ni => !isHardPair hard vi ni) ++ [vi]) with
      | none => simp [h1, h2, hm]
      | some pc => simp [h1, h2, hm, V3.add_smul_zero]

/-- The shrink step at zero strength is the identity. -/
theorem shrinkStep_zero (eigh : M3 → EighOut) (nbrs : Nat → List Nat)
    (hard : List (Nat × Nat)) (ps : List V3) :
    shrinkStep eigh nbrs hard 0 ps = ps := by
  unfold shrinkStep
  exact foldl_range_set_id _ _ (fun j _ => shrinkBody_zero eigh nbrs hard ps j)

/-- With `mu = 0` the inflate body reproduces the entry unchanged. -/
theorem inflateBody_zero (nbrs : Nat → List Nat) (ps : List V3) (vi : Nat) :
    inflateBody nbrs 0 ps vi = ps.getD vi 0 := by
  unfold inflateBody
  by_cases h1 : (nbrs vi).length < 1
  · simp [h1]
  · simp [h1, V3.add_smul_zero]

/-- The inflate step at zero strength is the identity. -/
theorem inflateStep_zero (nbrs : Nat → List Nat) (ps : List V3) :
    inflateStep nbrs 0 ps = ps := by
  unfold inflateStep
  exact foldl_range_set_id _ _ (fun j _ => inflateBody_zero nbrs ps j)

/-- The whole iteration loop at zero strength is the identity. -/
theorem loop_zero_strength (eigh : M3 → EighOut) (nbrs : Nat → List Nat)
    (hard : List (Nat × Nat)) (k : Nat) (ps : List V3) :
    (List.range k).foldl
        (fun ps _ => inflateStep nbrs 0 (shrinkStep eigh nbrs hard 0 ps)) ps = ps := by
  induction k with
  | zero => rfl
  | succ k ih =>
    rw [List.range_succ, List.foldl_append, ih]
    simp only [List.foldl_cons, List.foldl_nil]
    rw [shrinkStep_zero, inflateStep_zero]

/-- When the buffer handed to the final correction is the one the original
volume and centroid were computed from (and the cube-root oracle is exact at
`1`), the correction is the identity. -/
theorem volumeCorrect_self (cbrt : ℚ → ℚ) (faces : List (List Nat))
    (ps : List V3) (hcbrt : cbrt 1 = 1) :
    volumeCorrect cbrt faces (computeMeshVolume faces ps) (V3.vmean ps) ps = ps := by
  unfold volumeCorrect
  split_ifs with h1
  · have hVne : computeMeshVolume faces ps ≠ 0 :=
      ne_of_gt (lt_trans (by norm_num [volEps]) h1)
    simp only [div_self hVne, hcbrt]
    have hmap : ps.map (fun p => V3.vmean ps + (1 : ℚ) • (p - V3.vmean ps)) = ps := by
      have hfun : (fun p => V3.vmean ps + (1 : ℚ) • (p - V3.vmean ps)) =
          fun p => p := by
        funext p; apply V3.ext_xyz <;> simp
      rw [hfun, List.map_id']
    rw [hmap]
    have hz : V3.vmean ps - V3.vmean ps = 0 := by apply V3.ext_xyz <;> simp
    rw [hz]
    have hfun2 : (fun p => p + (0 : V3)) = fun p => p :=
      funext fun p => V3.add_zero_v p
    rw [hfun2, List.map_id']
    exact ite_self ps
  · rfl

/-- Oracle pair whose cube root is constantly `1`; exact at the only value
(`1`) fed to it in the runs the witnesses below perform. -/
def oneOracles : Oracles where
  eigh := fun _ => ⟨0, 0, 0, ⟨1, 0, 0⟩, ⟨0, 1, 0⟩, ⟨0, 0, 1⟩⟩
  cbrt := fun _ => 1

/-- C7: `strength = 0` (and likewise `iterations = 0`) leaves every vertex
position unchanged — exactly, in exact arithmetic (the float run is unchanged
within tolerance).  The cube-root oracle is assumed exact at `1`, the only
value such a run feeds it. -/
theorem C7_zero_strength_identity (orc : Oracles) (m : Mesh) (cfg : Config)
    (hcbrt : orc.cbrt 1 = 1) (h : cfg.strength = 0 ∨ cfg.iterations = 0) :
    clayPolishMesh orc m cfg = .ok m := by
  unfold clayPolishMesh
  by_cases hz : m.positions.length = 0
  · rw [if_pos hz]
  · rw [if_neg hz]
    have hloop : (List.range cfg.iterations.toNat).foldl
        (fun ps _ => inflateStep (vertNeighbors m.edges) (-(cfg.strength * (53 / 100)))
          (shrinkStep orc.eigh (vertNeighbors m.edges)
            (detectHardEdges m cfg.cosThreshold) (cfg.strength * (1 / 2)) ps))
        m.positions = m.positions := by
      rcases h with h | h
      · rw [h, show ((0 : ℚ) * (1 / 2)) = 0 by norm_num,
          show (-((0 : ℚ) * (53 / 100))) = 0 by norm_num]
        exact loop_zero_strength _ _ _ _ _
      · rw [h]
        rfl
    simp only [hloop]
    cases hk : cfg.keepVolume with
    | true =>
      simp only [if_pos]
      rw [volumeCorrect_self _ _ _ hcbrt]
    | false =>
      simp only [Bool.false_eq_true, if_neg, if_false]

theorem C7_zero_strength_identity_witness :
    oneOracles.cbrt 1 = 1 ∧
      ((Config.strength ⟨0, 3, 13 / 15, true⟩ = 0) ∨
        (Config.iterations ⟨0, 3, 13 / 15, true⟩ = 0)) ∧
      clayPolishMesh oneOracles cubeMesh ⟨0, 3, 13 / 15, true⟩ = .ok cubeMesh :=
  ⟨rfl, Or.inl rfl,
    C7_zero_strength_identity oneOracles cubeMesh ⟨0, 3, 13 / 15, true⟩ rfl (Or.inl rfl)⟩

/-- C6 counterexample: at an out-of-range configuration (negative
`iterations = -1`) the core does *not* surface any `InvalidConfigurationError`
— there is no validation and no raise site in `clay_polish_mesh`; the call
returns normally (`.ok`) with the cube's positions untouched, so the claimed
fail-fast error contract does not hold on the code. -/
theorem C6_counterexample_no_error :
    clayPolishMesh oneOracles cubeMesh ⟨1 / 2, -1, 13 / 15, true⟩ = .ok cubeMesh := by
  have h1 : oneOracles.cbrt 1 = 1 := rfl
  unfold clayPolishMesh
  rw [if_neg (by decide)]
  show Except.ok { cubeMesh with positions :=
    (volumeCorrect oneOracles.cbrt cubeMesh.faces
      (computeMeshVolume cubeMesh.faces cubeMesh.positions)
      (V3.vmean cubeMesh.positions) cubeMesh.positions) } = Except.ok cubeMesh
  rw [volumeCorrect_self _ _ _ h1]

/-- C6 (amended): the core performs no configuration validation at all and
never surfaces an error: every call — whatever the parameter values — returns
`.ok`; a negative iteration count is processed as zero iterations (Python's
empty `range`), which leaves the vertex positions unchanged. -/
theorem C6_amended_no_validation (orc : Oracles) (m : Mesh) (cfg : Config) :
    (∃ m', clayPolishMesh orc m cfg = .ok m') ∧
      (cfg.iterations ≤ 0 → orc.cbrt 1 = 1 → clayPolishMesh orc m cfg = .ok m) := by
  constructor
  · unfold clayPolishMesh
    by_cases hz : m.positions.length = 0
    · exact ⟨m, by rw [if_pos hz]⟩
    · rw [if_neg hz]
      exact ⟨_, rfl⟩
  · intro hneg hcbrt
    unfold clayPolishMesh
    by_cases hz : m.positions.length = 0
    · rw [if_pos hz]
    · rw [if_neg hz]
      have hit : cfg.iterations.toNat = 0 := Int.toNat_of_nonpos hneg
      have hloop : (List.range cfg.iterations.toNat).foldl
          (fun ps _ => inflateStep (vertNeighbors m.edges) (-(cfg.strength * (53 / 100)))
            (shrinkStep orc.eigh (vertNeighbors m.edges)
              (detectHardEdges m cfg.cosThreshold) (cfg.strength * (1 / 2)) ps))
          m.positions = m.positions := by
        rw [hit]
        rfl
      simp only [hloop]
      cases hk : cfg.keepVolume with
      | true =>
        simp only [if_pos]
        rw [volumeCorrect_self _ _ _ hcbrt]
      | false =>
        simp only [Bool.false_eq_true, if_neg, if_false]

theorem C6_amended_no_validation_witness :
    ((Config.iterations ⟨1 / 2, -1, 13 / 15, true⟩ ≤ 0) ∧ oneOracles.cbrt 1 = 1) ∧
      clayPolishMesh oneOracles cubeMesh ⟨1 / 2, -1, 13 / 15, true⟩ = .ok cubeMesh :=
  ⟨⟨by decide, rfl⟩,
    (C6_amended_no_validation oneOracles cubeMesh ⟨1 / 2, -1, 13 / 15, true⟩).2
      (by decide) rfl⟩

/-- The clamp stays at or above `-1`. -/
theorem clampUnit_ge (d : ℚ) : -1 ≤ clampUnit d := by
  unfold clampUnit
  split_ifs with h1 h2 <;> [norm_num; norm_num; linarith]

/-- The clamp stays at or below `1`. -/
theorem clampUnit_le (d : ℚ) : clampUnit d ≤ 1 := by
  unfold clampUnit
  split_ifs with h1 h2 <;> [norm_num; norm_num; linarith]

/-- Faithfulness of the cosine-threshold embedding: with unit face normals
the source's comparison `acos (clamp d) > θ` (via `mathutils.Vector.angle`)
holds exactly when the embedded comparison `angleExceeds` does, whenever `c`
is the cosine of the threshold angle `θ ∈ [0, π]`. -/
theorem angleExceeds_iff_arccos (n1 n2 : V3) (θ : ℝ) (hθ0 : 0 ≤ θ)
    (hθπ : θ ≤ Real.pi) (c : ℚ) (hcθ : (c : ℝ) = Real.cos θ) :
    (angleExceeds n1 n2 c = true ↔
      θ < Real.arccos ((clampUnit (V3.dot n1 n2) : ℚ) : ℝ)) := by
  unfold angleExceeds
  rw [decide_eq_true_eq]
  have hx1 : (-1 : ℝ) ≤ ((clampUnit (V3.dot n1 n2) : ℚ) : ℝ) := by
    have := clampUnit_ge (V3.dot n1 n2)
    exact_mod_cast this
  have hx2 : ((clampUnit (V3.dot n1 n2) : ℚ) : ℝ) ≤ 1 := by
    have := clampUnit_le (V3.dot n1 n2)
    exact_mod_cast this
  have hmem : ((clampUnit (V3.dot n1 n2) : ℚ) : ℝ) ∈ Set.Icc (-1 : ℝ) 1 :=
    ⟨hx1, hx2⟩
  have hmem2 : Real.cos θ ∈ Set.Icc (-1 : ℝ) 1 :=
    ⟨Real.neg_one_le_cos θ, Real.cos_le_one θ⟩
  constructor
  · intro h
    have hlt : ((clampUnit (V3.dot n1 n2) : ℚ) : ℝ) < Real.cos θ := by
      rw [← hcθ]; exact_mod_cast h
    have := Real.strictAntiOn_arccos hmem hmem2 hlt
    rwa [Real.arccos_cos hθ0 hθπ] at this
  · intro h
    have h2 : Real.arccos (Real.cos θ) < Real.arccos ((clampUnit (V3.dot n1 n2) : ℚ) : ℝ) := by
      rwa [Real.arccos_cos hθ0 hθπ]
    have hlt : ((clampUnit (V3.dot n1 n2) : ℚ) : ℝ) < Real.cos θ := by
      by_contra hge
      push_neg at hge
      rcases eq_or_lt_of_le hge with he | hlt2
      · rw [he] at h2; exact lt_irrefl _ h2
      · exact absurd (Real.strictAntiOn_arccos hmem2 hmem hlt2) (not_lt.mpr (le_of_lt h2))
    rw [← hcθ] at hlt
    exact_mod_cast hlt

/-- C5: the hard-edge detector marks an edge hard exactly when it borders
two faces (`len(edge.link_faces) == 2`) and the face-normal angle exceeds the
threshold (embedded as the clamped dot falling below the cosine `c` of the
threshold, see `angleExceeds_iff_arccos`); edges bordering 0 or 1 face are
never marked; the threshold `π` (whose cosine is `-1`) marks no edge at all. -/
theorem C5_hard_edge_detector (m : Mesh) (c : ℚ) :
    (∀ e, e ∈ detectHardEdges m c ↔
      e ∈ m.edges ∧ (linkFaces m.faces e.1 e.2).length = 2 ∧
        clampUnit (V3.dot
          (m.faceNormals.getD ((linkFaces m.faces e.1 e.2).getD 0 0) 0)
          (m.faceNormals.getD ((linkFaces m.faces e.1 e.2).getD 1 0) 0)) < c) ∧
    (∀ e, (linkFaces m.faces e.1 e.2).length ≤ 1 → e ∉ detectHardEdges m c) ∧
    (c = -1 → detectHardEdges m c = []) := by
  have hmem : ∀ e, e ∈ detectHardEdges m c ↔
      e ∈ m.edges ∧ (linkFaces m.faces e.1 e.2).length = 2 ∧
        clampUnit (V3.dot
          (m.faceNormals.getD ((linkFaces m.faces e.1 e.2).getD 0 0) 0)
          (m.faceNormals.getD ((linkFaces m.faces e.1 e.2).getD 1 0) 0)) < c := by
    intro e
    unfold detectHardEdges angleExceeds
    rw [List.mem_filter]
    simp [and_assoc]
  refine ⟨hmem, ?_, ?_⟩
  · intro e hle hmem2
    rw [hmem e] at hmem2
    omega
  · intro hc
    subst hc
    unfold detectHardEdges
    rw [List.filter_eq_nil_iff]
    intro e _
    unfold angleExceeds
    simp only [Bool.and_eq_true, decide_eq_true_eq, not_and]
    intro _
    exact not_lt.mpr (clampUnit_ge _)

@[simp] theorem M3.add_r0 (a b : M3) : (a + b).r0 = a.r0 + b.r0 := rfl
@[simp] theorem M3.add_r1 (a b : M3) : (a + b).r1 = a.r1 + b.r1 := rfl
@[simp] theorem M3.add_r2 (a b : M3) : (a + b).r2 = a.r2 + b.r2 := rfl

theorem V3.dot_smul_right (c : ℚ) (a b : V3) :
    V3.dot a (c • b) = c * V3.dot a b := by
  unfold V3.dot; simp; ring

theorem V3.dot_smul_left (c : ℚ) (a b : V3) :
    V3.dot (c • a) b = c * V3.dot a b := by
  unfold V3.dot; simp; ring

/-- The covariance matrix (a sum of self outer products) is symmetric. -/
theorem covMat_symm (l : List V3) : (covMat l).IsSymm := by
  unfold covMat
  induction l with
  | nil => exact ⟨rfl, rfl, rfl⟩
  | cons p t ih =>
    obtain ⟨i1, i2, i3⟩ := ih
    simp only [List.map_cons, List.foldr_cons]
    refine ⟨?_, ?_, ?_⟩ <;>
      simp only [M3.IsSymm, M3.add_r0, M3.add_r1, M3.add_r2, M3.outer,
        V3.add_x, V3.add_y, V3.add_z] <;>
      [rw [i1]; rw [i2]; rw [i3]] <;> ring_nf

/-- The 3×3 matrix whose rows are the three given vectors. -/
def rowsMat (v0 v1 v2 : V3) : Matrix (Fin 3) (Fin 3) ℚ :=
  Matrix.of ![![v0.x, v0.y, v0.z], ![v1.x, v1.y, v1.z], ![v2.x, v2.y, v2.z]]

/-- Three orthonormal vectors of `ℚ³` are also orthonormal as columns: a
right inverse of a square matrix is a left inverse
(`Matrix.mul_eq_one_comm`), giving the transposed orthonormality sums. -/
theorem orthonormal_transpose (v0 v1 v2 : V3)
    (hn0 : V3.dot v0 v0 = 1) (hn1 : V3.dot v1 v1 = 1) (hn2 : V3.dot v2 v2 = 1)
    (ho01 : V3.dot v0 v1 = 0) (ho02 : V3.dot v0 v2 = 0) (ho12 : V3.dot v1 v2 = 0) :
    (v0.x * v0.x + v1.x * v1.x + v2.x * v2.x = 1) ∧
    (v0.y * v0.y + v1.y * v1.y + v2.y * v2.y = 1) ∧
    (v0.z * v0.z + v1.z * v1.z + v2.z * v2.z = 1) ∧
    (v0.x * v0.y + v1.x * v1.y + v2.x * v2.y = 0) ∧
    (v0.x * v0.z + v1.x * v1.z + v2.x * v2.z = 0) ∧
    (v0.y * v0.z + v1.y * v1.z + v2.y * v2.z = 0) := by
  have hM : rowsMat v0 v1 v2 * (rowsMat v0 v1 v2).transpose = 1 := by
    unfold V3.dot at hn0 hn1 hn2 ho01 ho02 ho12
    ext i j
    fin_cases i <;> fin_cases j <;>
      simp [rowsMat, Matrix.mul_apply, Fin.sum_univ_three, Matrix.one_apply,
        Matrix.transpose_apply, Matrix.cons_val_zero, Matrix.cons_val_one,
        Matrix.head_cons, Matrix.vecHead, Matrix.vecTail] <;>
      first
      | linear_combination hn0
      | linear_combination hn1
      | linear_combination hn2
      | linear_combination ho01
      | linear_combination ho02
      | linear_combination ho12
  have hM2 : (rowsMat v0 v1 v2).transpose * rowsMat v0 v1 v2 = 1 :=
    Matrix.mul_eq_one_comm.mp hM
  have he : ∀ i j, ((rowsMat v0 v1 v2).transpose * rowsMat v0 v1 v2) i j =
      (1 : Matrix (Fin 3) (Fin 3) ℚ) i j := fun i j => by rw [hM2]
  refine ⟨?_, ?_, ?_, ?_, ?_, ?_⟩
  · have := he 0 0
    simpa [rowsMat, Matrix.mul_apply, Fin.sum_univ_three, Matrix.one_apply,
      Matrix.transpose_apply, Matrix.cons_val_zero, Matrix.cons_val_one,
      Matrix.head_cons, Matrix.vecHead, Matrix.vecTail] using this
  · have := he 1 1
    simpa [rowsMat, Matrix.mul_apply, Fin.sum_univ_three, Matrix.one_apply,
      Matrix.transpose_apply, Matrix.cons_val_zero, Matrix.cons_val_one,
      Matrix.head_cons, Matrix.vecHead, Matrix.vecTail] using this
  · have := he 2 2
    simpa [rowsMat, Matrix.mul_apply, Fin.sum_univ_three, Matrix.one_apply,
      Matrix.transpose_apply, Matrix.cons_val_zero, Matrix.cons_val_one,
      Matrix.head_cons, Matrix.vecHead, Matrix.vecTail] using this
  · have := he 0 1
    simpa [rowsMat, Matrix.mul_apply, Fin.sum_univ_three, Matrix.one_apply,
      Matrix.transpose_apply, Matrix.cons_val_zero, Matrix.cons_val_one,
      Matrix.head_cons, Matrix.vecHead, Matrix.vecTail] using this
  · have := he 0 2
    simpa [rowsMat, Matrix.mul_apply, Fin.sum_univ_three, Matrix.one_apply,
      Matrix.transpose_apply, Matrix.cons_val_zero, Matrix.cons_val_one,
      Matrix.head_cons, Matrix.vecHead, Matrix.vecTail] using this
  · have := he 1 2
    simpa [rowsMat, Matrix.mul_apply, Fin.sum_univ_three, Matrix.one_apply,
      Matrix.transpose_apply, Matrix.cons_val_zero, Matrix.cons_val_one,
      Matrix.head_cons, Matrix.vecHead, Matrix.vecTail] using this

/-- Every vector of `ℚ³` is the orthonormal expansion over three orthonormal
vectors. -/
theorem orthonormal_expand (v0 v1 v2 w : V3)
    (hn0 : V3.dot v0 v0 = 1) (hn1 : V3.dot v1 v1 = 1) (hn2 : V3.dot v2 v2 = 1)
    (ho01 : V3.dot v0 v1 = 0) (ho02 : V3.dot v0 v2 = 0) (ho12 : V3.dot v1 v2 = 0) :
    w = V3.dot w v0 • v0 + V3.dot w v1 • v1 + V3.dot w v2 • v2 := by
  obtain ⟨e1, e2, e3, e4, e5, e6⟩ :=
    orthonormal_transpose v0 v1 v2 hn0 hn1 hn2 ho01 ho02 ho12
  apply V3.ext_xyz <;>
    simp only [V3.dot, V3.add_x, V3.add_y, V3.add_z, V3.smul_x, V3.smul_y,
      V3.smul_z] <;>
    [linear_combination -w.x * e1 - w.y * e4 - w.z * e5;
     linear_combination -w.x * e4 - w.y * e2 - w.z * e6;
     linear_combination -w.x * e5 - w.y * e6 - w.z * e3]

/-- A symmetric `M3` is self-adjoint for the dot product. -/
theorem mulVec_symm_dot (M : M3) (hs : M.IsSymm) (a b : V3) :
    V3.dot (M.mulVec a) b = V3.dot a (M.mulVec b) := by
  obtain ⟨h1, h2, h3⟩ := hs
  simp only [M3.mulVec, V3.dot] at *
  linear_combination (a.y * b.x - a.x * b.y) * h1 + (a.z * b.x - a.x * b.z) * h2 +
    (a.z * b.y - a.y * b.z) * h3

/-- For a symmetric matrix with an orthonormal eigendecomposition in
ascending order, the first eigenvalue is a lower bound for *every* rational
eigenvalue of the matrix — "the smallest eigenvalue". -/
theorem eigh_val0_min (M : M3) (hs : M.IsSymm) (o : EighOut)
    (ho : eighSpec M o) (mu : ℚ) (w : V3) (hw : w ≠ 0)
    (hMw : M.mulVec w = mu • w) : o.val0 ≤ mu := by
  obtain ⟨h01, h12, hv0, hv1, hv2, hn0, hn1, hn2, ho01, ho02, ho12⟩ := ho
  have key : ∀ (v : V3) (lam : ℚ), M.mulVec v = lam • v →
      (mu - lam) * V3.dot w v = 0 := by
    intro v lam hv
    have ha : V3.dot (M.mulVec w) v = mu * V3.dot w v := by
      rw [hMw, V3.dot_smul_left]
    have hb : V3.dot (M.mulVec w) v = lam * V3.dot w v := by
      rw [mulVec_symm_dot M hs, hv, V3.dot_smul_right]
    linear_combination hb - ha
  have k0 := key o.vec0 o.val0 hv0
  have k1 := key o.vec1 o.val1 hv1
  have k2 := key o.vec2 o.val2 hv2
  by_cases a0 : V3.dot w o.vec0 = 0
  · by_cases a1 : V3.dot w o.vec1 = 0
    · by_cases a2 : V3.dot w o.vec2 = 0
      · exfalso
        apply hw
        have hexp := orthonormal_expand o.vec0 o.vec1 o.vec2 w hn0 hn1 hn2
          ho01 ho02 ho12
        rw [a0, a1, a2] at hexp
        rw [hexp]
        apply V3.ext_xyz <;> simp
      · have hmu : mu = o.val2 := by
          rcases mul_eq_zero.mp k2 with h | h
          · linarith
          · exact absurd h a2
        rw [hmu]
        exact le_trans h01 h12
    · have hmu : mu = o.val1 := by
        rcases mul_eq_zero.mp k1 with h | h
        · linarith
        · exact absurd h a1
      rw [hmu]
      exact h01
  · have hmu : mu = o.val0 := by
      rcases mul_eq_zero.mp k0 with h | h
      · linarith
      · exact absurd h a0
    rw [hmu]

/-- The covariance matrix `compute_local_plane_normal` builds: outer-product
sum of the selected points centered on their mean. -/
def planeCov (positions : List V3) (idxs : List Nat) : M3 :=
  covMat ((selectPts positions idxs).map fun p =>
    p - V3.vmean (selectPts positions idxs))

theorem M3.ext_rows {a b : M3} (h0 : a.r0 = b.r0) (h1 : a.r1 = b.r1)
    (h2 : a.r2 = b.r2) : a = b := by
  cases a; cases b; simp_all

/-- Centering on a zero mean is the identity. -/
theorem map_sub_zero (l : List V3) : (l.map fun p => p - 0) = l := by
  induction l with
  | nil => rfl
  | cons p t ih =>
    simp only [List.map_cons, ih, List.cons.injEq, and_true]
    apply V3.ext_xyz <;> simp

/-- C4: the plane fitter returns `None` exactly on fewer than 3 indices;
otherwise it returns the pair of `eigenvectors[:, 0]` of the covariance of
the centered selected points, and the centroid (mean) of those points.
Under the documented `eigh` contract (`eighSpec`) that normal is a unit
eigenvector whose eigenvalue bounds every rational eigenvalue of the
covariance matrix from below — the smallest eigenvalue. -/
theorem C4_plane_fitter (eigh : M3 → EighOut) (positions : List V3)
    (idxs : List Nat) :
    (idxs.length < 3 → computeLocalPlaneNormal eigh positions idxs = none) ∧
    (3 ≤ idxs.length →
      computeLocalPlaneNormal eigh positions idxs =
        some ((eigh (planeCov positions idxs)).vec0,
          V3.vmean (selectPts positions idxs)) ∧
      (eighSpec (planeCov positions idxs) (eigh (planeCov positions idxs)) →
        V3.dot (eigh (planeCov positions idxs)).vec0
            (eigh (planeCov positions idxs)).vec0 = 1 ∧
        (planeCov positions idxs).mulVec (eigh (planeCov positions idxs)).vec0 =
          (eigh (planeCov positions idxs)).val0 •
            (eigh (planeCov positions idxs)).vec0 ∧
        ∀ mu w, w ≠ 0 → (planeCov positions idxs).mulVec w = mu • w →
          (eigh (planeCov positions idxs)).val0 ≤ mu)) := by
  constructor
  · intro h
    unfold computeLocalPlaneNormal
    rw [if_pos h]
  · intro h
    constructor
    · unfold computeLocalPlaneNormal
      rw [if_neg (not_lt.mpr h)]
      rfl
    · intro hspec
      refine ⟨hspec.2.2.2.2.2.1, hspec.2.2.1, ?_⟩
      intro mu w hw hMw
      exact eigh_val0_min _ (covMat_symm _) _ hspec mu w hw hMw

/-- Five coplanar sample points (the `z = 0` plane) for the plane-fitter
witness. -/
def c4Pts : List V3 :=
  [⟨0, 0, 0⟩, ⟨1, 0, 0⟩, ⟨0, 1, 0⟩, ⟨-1, 0, 0⟩, ⟨0, -1, 0⟩]

/-- A fixed eigendecomposition answer that is correct for the covariance
matrix `diag(2, 2, 0)` of `c4Pts`. -/
def c4Eigh : M3 → EighOut :=
  fun _ => ⟨0, 2, 2, ⟨0, 0, 1⟩, ⟨1, 0, 0⟩, ⟨0, 1, 0⟩⟩

@[simp] theorem M3.zero_r0 : (0 : M3).r0 = 0 := rfl
@[simp] theorem M3.zero_r1 : (0 : M3).r1 = 0 := rfl
@[simp] theorem M3.zero_r2 : (0 : M3).r2 = 0 := rfl

theorem c4_cov_eval : planeCov c4Pts [0, 1, 2, 3, 4] =
    ⟨⟨2, 0, 0⟩, ⟨0, 2, 0⟩, ⟨0, 0, 0⟩⟩ := by
  unfold planeCov
  rw [show selectPts c4Pts [0, 1, 2, 3, 4] = c4Pts from rfl]
  have hm : V3.vmean c4Pts = 0 := by
    unfold V3.vmean
    apply V3.ext_xyz <;> norm_num [c4Pts, V3.lsum]
  rw [hm, map_sub_zero]
  apply M3.ext_rows <;> (apply V3.ext_xyz <;> norm_num [covMat, c4Pts, M3.outer, V3.lsum])

theorem C4_plane_fitter_witness :
    3 ≤ ([0, 1, 2, 3, 4] : List Nat).length ∧
      eighSpec (planeCov c4Pts [0, 1, 2, 3, 4])
        (c4Eigh (planeCov c4Pts [0, 1, 2, 3, 4])) ∧
      computeLocalPlaneNormal c4Eigh c4Pts [0, 1, 2, 3, 4] =
        some ((c4Eigh (planeCov c4Pts [0, 1, 2, 3, 4])).vec0,
          V3.vmean (selectPts c4Pts [0, 1, 2, 3, 4])) :=
  ⟨by decide,
    by
      rw [c4_cov_eval]
      refine ⟨by norm_num [c4Eigh], by norm_num [c4Eigh], ?_, ?_, ?_, ?_⟩ <;>
        (first
          | (apply V3.ext_xyz <;> norm_num [c4Eigh, M3.mulVec, V3.dot])
          | norm_num [c4Eigh, M3.mulVec, V3.dot]
          | refine ⟨?_, ?_⟩ <;>
              first
                | (apply V3.ext_xyz <;> norm_num [c4Eigh, M3.mulVec, V3.dot])
                | norm_num [c4Eigh, V3.dot]
                | (refine ⟨?_, ?_⟩ <;>
                    first
                      | (apply V3.ext_xyz <;> norm_num [c4Eigh, M3.mulVec, V3.dot])
                      | norm_num [c4Eigh, V3.dot]
                      | (constructor <;> norm_num [c4Eigh, V3.dot])))
    ,
    ((C4_plane_fitter c4Eigh c4Pts [0, 1, 2, 3, 4]).2 (by decide)).1⟩

theorem C5_hard_edge_detector_witness :
    detectHardEdges cubeMesh (-1) = [] :=
  (C5_hard_edge_detector cubeMesh (-1)).2.2 rfl

/-- A fold of a constant-function body is function iteration. -/
theorem foldl_range_const {α : Type} (f : α → α) (k : Nat) (a : α) :
    (List.range k).foldl (fun x _ => f x) a = f^[k] a := by
  induction k with
  | zero => rfl
  | succ k ih =>
    rw [List.range_succ, List.foldl_append, ih]
    simp only [List.foldl_cons, List.foldl_nil]
    rw [Function.iterate_succ_apply']

/-- C1: each smoothing iteration is the shrink step followed by the inflate
step, each computed pointwise from the buffer as it stood at the start of
that step.  The shrink step moves exactly the vertices with at least 3 valid
(non-hard-edge-crossing) neighbors, to
`pos + (projected - pos) * (strength * 0.5)` with the projection onto the
plane fitted through the valid neighbors plus the vertex itself; the inflate
step moves exactly the vertices with at least 1 neighbor, to
`pos + laplacian * (-strength * 0.53)` with the Laplacian the mean of all
neighbor positions minus the own position; and `clay_polish_mesh` iterates
exactly this two-step composite `iterations` times. -/
theorem C1_two_step_iteration (orc : Oracles) (m : Mesh) (cfg : Config)
    (ps : List V3) (vi : Nat) (hvi : vi < ps.length)
    (hne : m.positions.length ≠ 0) :
    ((shrinkStep orc.eigh (vertNeighbors m.edges)
        (detectHardEdges m cfg.cosThreshold) (cfg.strength * (1 / 2)) ps).getD vi 0 =
      if 3 ≤ ((vertNeighbors m.edges vi).filter fun ni =>
          !isHardPair (detectHardEdges m cfg.cosThreshold) vi ni).length then
        ps.getD vi 0 + (cfg.strength * (1 / 2)) •
          (projectToPlane (ps.getD vi 0)
            (orc.eigh (planeCov ps
              (((vertNeighbors m.edges vi).filter fun ni =>
                !isHardPair (detectHardEdges m cfg.cosThreshold) vi ni) ++ [vi]))).vec0
            (V3.vmean (selectPts ps
              (((vertNeighbors m.edges vi).filter fun ni =>
                !isHardPair (detectHardEdges m cfg.cosThreshold) vi ni) ++ [vi]))) -
            ps.getD vi 0)
      else ps.getD vi 0) ∧
    ((inflateStep (vertNeighbors m.edges) (-(cfg.strength * (53 / 100))) ps).getD vi 0 =
      if 1 ≤ (vertNeighbors m.edges vi).length then
        ps.getD vi 0 + (-(cfg.strength * (53 / 100))) •
          (V3.vmean (selectPts ps (vertNeighbors m.edges vi)) - ps.getD vi 0)
      else ps.getD vi 0) ∧
    (∃ m', clayPolishMesh orc m cfg = .ok m' ∧
      m'.positions =
        if cfg.keepVolume then
          volumeCorrect orc.cbrt m.faces (computeMeshVolume m.faces m.positions)
            (V3.vmean m.positions)
            ((inflateStep (vertNeighbors m.edges) (-(cfg.strength * (53 / 100))) ∘
                shrinkStep orc.eigh (vertNeighbors m.edges)
                  (detectHardEdges m cfg.cosThreshold)
                  (cfg.strength * (1 / 2)))^[cfg.iterations.toNat] m.positions)
        else
          (inflateStep (vertNeighbors m.edges) (-(cfg.strength * (53 / 100))) ∘
              shrinkStep orc.eigh (vertNeighbors m.edges)
                (detectHardEdges m cfg.cosThreshold)
                (cfg.strength * (1 / 2)))^[cfg.iterations.toNat] m.positions) := by
  refine ⟨?_, ?_, ?_⟩
  · rw [shrinkStep_getD _ _ _ _ _ _ hvi]
    unfold shrinkBody
    by_cases h3 : 3 ≤ ((vertNeighbors m.edges vi).filter fun ni =>
        !isHardPair (detectHardEdges m cfg.cosThreshold) vi ni).length
    · have hn3 : ¬((vertNeighbors m.edges vi).length < 3) := by
        have := List.length_filter_le (fun ni =>
          !isHardPair (detectHardEdges m cfg.cosThreshold) vi ni)
          (vertNeighbors m.edges vi)
        omega
      rw [if_pos h3, if_neg hn3, if_neg (not_lt.mpr h3)]
      have hcp : computeLocalPlaneNormal orc.eigh ps
          (((vertNeighbors m.edges vi).filter fun ni =>
            !isHardPair (detectHardEdges m cfg.cosThreshold) vi ni) ++ [vi]) =
          some ((orc.eigh (planeCov ps
            (((vertNeighbors m.edges vi).filter fun ni =>
              !isHardPair (detectHardEdges m cfg.cosThreshold) vi ni) ++ [vi]))).vec0,
            V3.vmean (selectPts ps
              (((vertNeighbors m.edges vi).filter fun ni =>
                !isHardPair (detectHardEdges m cfg.cosThreshold) vi ni) ++ [vi]))) := by
        unfold computeLocalPlaneNormal
        rw [if_neg (by rw [List.length_append]; omega)]
        rfl
      rw [hcp]
    · rw [if_neg h3]
      by_cases hlen : (vertNeighbors m.edges vi).length < 3
      · rw [if_pos hlen]
      · rw [if_neg hlen, if_pos (by omega)]
  · rw [inflateStep_getD _ _ _ _ hvi]
    unfold inflateBody
    by_cases h1 : 1 ≤ (vertNeighbors m.edges vi).length
    · rw [if_pos h1, if_neg (by omega)]
    · rw [if_neg h1, if_pos (by omega)]
  · unfold clayPolishMesh
    rw [if_neg hne]
    refine ⟨_, rfl, ?_⟩
    by_cases hk : cfg.keepVolume
    · simp only [hk, if_pos]
      congr 1
      exact foldl_range_const _ _ _
    · simp only [hk, Bool.false_eq_true, if_false]
      exact foldl_range_const _ _ _

theorem C1_two_step_iteration_witness :
    0 < cubeMesh.positions.length ∧ cubeMesh.positions.length ≠ 0 ∧
      ((inflateStep (vertNeighbors cubeMesh.edges) (-((1 : ℚ) * (53 / 100)))
          cubeMesh.positions).getD 0 0 =
        if 1 ≤ (vertNeighbors cubeMesh.edges 0).length then
          cubeMesh.positions.getD 0 0 + (-((1 : ℚ) * (53 / 100))) •
            (V3.vmean (selectPts cubeMesh.positions (vertNeighbors cubeMesh.edges 0)) -
              cubeMesh.positions.getD 0 0)
        else cubeMesh.positions.getD 0 0) :=
  ⟨by decide, by decide,
    (C1_two_step_iteration oneOracles cubeMesh ⟨1, 10, 13 / 15, true⟩
      cubeMesh.positions 0 (by decide) (by decide)).2.1⟩

theorem lsum_map_add (l : List V3) (v : V3) :
    V3.lsum (l.map fun p => p + v) = V3.lsum l + (l.length : ℚ) • v := by
  induction l with
  | nil => apply V3.ext_xyz <;> simp
  | cons p t ih =>
    simp only [List.map_cons, V3.lsum_cons, ih, List.length_cons]
    apply V3.ext_xyz <;> simp <;> push_cast <;> ring

/-- Translating every entry translates the mean (nonempty list). -/
theorem vmean_map_add (l : List V3) (v : V3) (h : 0 < l.length) :
    V3.vmean (l.map fun p => p + v) = V3.vmean l + v := by
  unfold V3.vmean
  rw [List.length_map, lsum_map_add]
  have hn : ((l.length : ℚ)) ≠ 0 := by
    have : l.length ≠ 0 := Nat.pos_iff_ne_zero.mp h
    exact_mod_cast this
  apply V3.ext_xyz <;> simp <;> field_simp <;> ring

/-- C3: with `keep_volume` on, `clay_polish_mesh` hands the post-iteration
buffer to the final correction with the original volume and centroid taken
from the *input* positions; the correction rescales exactly when both the
original and the recomputed volume exceed `1e-10` — about the current
centroid, by the cube root (`cbrt` oracle, modelling `** (1/3)`) of the
volume ratio — and then translates so the final centroid equals the original
centroid exactly; if either volume is at or below `1e-10` the buffer is
returned untouched (and, the embedding being total, no error is raised). -/
theorem C3_volume_correction (cbrt : ℚ → ℚ) (faces : List (List Nat))
    (origVolume : ℚ) (origCenter : V3) (ps : List V3) (orc : Oracles)
    (m : Mesh) (cfg : Config) :
    (origVolume ≤ volEps ∨ computeMeshVolume faces ps ≤ volEps →
      volumeCorrect cbrt faces origVolume origCenter ps = ps) ∧
    (volEps < origVolume → volEps < computeMeshVolume faces ps →
      volumeCorrect cbrt faces origVolume origCenter ps =
        ((ps.map fun p => V3.vmean ps +
            cbrt (origVolume / computeMeshVolume faces ps) • (p - V3.vmean ps)).map
          fun p => p + (origCenter -
            V3.vmean (ps.map fun p => V3.vmean ps +
              cbrt (origVolume / computeMeshVolume faces ps) • (p - V3.vmean ps)))) ∧
      (0 < ps.length →
        V3.vmean (volumeCorrect cbrt faces origVolume origCenter ps) = origCenter)) ∧
    (m.positions.length ≠ 0 → cfg.keepVolume = true →
      ∃ m', clayPolishMesh orc m cfg = .ok m' ∧
        m'.positions = volumeCorrect orc.cbrt m.faces
          (computeMeshVolume m.faces m.positions) (V3.vmean m.positions)
          ((List.range cfg.iterations.toNat).foldl
            (fun ps _ => inflateStep (vertNeighbors m.edges)
              (-(cfg.strength * (53 / 100)))
              (shrinkStep orc.eigh (vertNeighbors m.edges)
                (detectHardEdges m cfg.cosThreshold)
                (cfg.strength * (1 / 2)) ps))
            m.positions)) := by
  have hmap : volEps < origVolume → volEps < computeMeshVolume faces ps →
      volumeCorrect cbrt faces origVolume origCenter ps =
        ((ps.map fun p => V3.vmean ps +
            cbrt (origVolume / computeMeshVolume faces ps) • (p - V3.vmean ps)).map
          fun p => p + (origCenter -
            V3.vmean (ps.map fun p => V3.vmean ps +
              cbrt (origVolume / computeMeshVolume faces ps) • (p - V3.vmean ps)))) := by
    intro h1 h2
    unfold volumeCorrect
    rw [if_pos h1]
    simp only [if_pos h2]
  refine ⟨?_, fun h1 h2 => ⟨hmap h1 h2, fun hn => ?_⟩, fun hne hk => ?_⟩
  · intro h
    unfold volumeCorrect
    rcases h with h | h
    · rw [if_neg (not_lt.mpr h)]
    · by_cases h1 : volEps < origVolume
      · rw [if_pos h1]
        simp only [if_neg (not_lt.mpr h)]
      · rw [if_neg h1]
  · rw [hmap h1 h2, vmean_map_add _ _ (by simpa using hn)]
    apply V3.ext_xyz <;> simp <;> ring
  · unfold clayPolishMesh
    rw [if_neg hne]
    refine ⟨_, rfl, ?_⟩
    simp only [hk, if_pos]

theorem C3_volume_correction_witness :
    (computeMeshVolume ([] : List (List Nat)) (cubeScaled (1 / 2)) ≤ volEps) ∧
      volumeCorrect (fun _ => 1) [] 1 0 (cubeScaled (1 / 2)) = cubeScaled (1 / 2) :=
  ⟨by norm_num [computeMeshVolume, ratAbs, volEps],
    (C3_volume_correction (fun _ => 1) [] 1 0 (cubeScaled (1 / 2)) oneOracles
      cubeMesh ⟨1, 1, 1, true⟩).1
      (Or.inr (by norm_num [computeMeshVolume, ratAbs, volEps]))⟩

/-- C10: the inflate step applies hard-edge filtering nowhere — it does not
even consult the hard-edge set, and every vertex with at least one neighbor
receives the displacement `mu` times the Laplacian over *all* its neighbors;
concretely, on the all-edges-hard cube at `strength = 1` the crease vertices,
skipped by the shrink step, are nevertheless displaced by the inflate step of
the iteration. -/
theorem C10_inflate_ignores_hard_edges (nbrs : Nat → List Nat) (mu : ℚ)
    (ps : List V3) (vi : Nat) (hvi : vi < ps.length)
    (h1 : 1 ≤ (nbrs vi).length) :
    ((inflateStep nbrs mu ps).getD vi 0 =
      ps.getD vi 0 + mu • (V3.vmean (selectPts ps (nbrs vi)) - ps.getD vi 0)) ∧
    (∀ eigh : M3 → EighOut,
      (inflateStep (vertNeighbors cubeMesh.edges) (-((1 : ℚ) * (53 / 100)))
        (shrinkStep eigh (vertNeighbors cubeMesh.edges) cubeMesh.edges
          ((1 : ℚ) * (1 / 2)) cubeMesh.positions)).getD 0 0 ≠
        cubeMesh.positions.getD 0 0) := by
  constructor
  · rw [inflateStep_getD _ _ _ _ hvi]
    unfold inflateBody
    rw [if_neg (by omega)]
  · intro eigh
    rw [cubeMesh_positions_eq, cube_shrink_id _ _ _ (cubeScaled_length _),
      cube_inflate_scale]
    intro hEq
    have hx := congrArg (fun v => v.x) hEq
    simp only [show ((cubeScaled ((1 - 2 / 3 * (-((1 : ℚ) * (53 / 100)))) *
        (1 / 2))).getD 0 0).x =
        -((1 - 2 / 3 * (-((1 : ℚ) * (53 / 100)))) * (1 / 2)) from rfl,
      show ((cubeScaled ((1 : ℚ) / 2)).getD 0 0).x = -((1 : ℚ) / 2) from rfl] at hx
    norm_num at hx

theorem C10_inflate_ignores_hard_edges_witness :
    0 < cubeMesh.positions.length ∧
      1 ≤ (vertNeighbors cubeMesh.edges 0).length ∧
      ((inflateStep (vertNeighbors cubeMesh.edges) (-((1 : ℚ) * (53 / 100)))
          cubeMesh.positions).getD 0 0 =
        cubeMesh.positions.getD 0 0 + (-((1 : ℚ) * (53 / 100))) •
          (V3.vmean (selectPts cubeMesh.positions (vertNeighbors cubeMesh.edges 0)) -
            cubeMesh.positions.getD 0 0)) :=
  ⟨by decide, by decide,
    (C10_inflate_ignores_hard_edges (vertNeighbors cubeMesh.edges)
      (-((1 : ℚ) * (53 / 100))) cubeMesh.positions 0 (by decide) (by decide)).1⟩
